import Mathlib

/-!
Verification of the command-parsing core of mspdebug (src/parse.c):
the token extractor `get_arg`, the dispatcher `process_command`,
case-insensitive registry lookups `find_command` / `find_option`,
the typed option parser `parse_option`, and the address-expression
evaluator `addr_exp` / `token_add`.

Strings are modelled as `List Char` (the characters of a C string, which
contains no embedded NUL).  C `int` arithmetic is modelled with `Int`;
the final `& 0xffff` of `addr_exp` on a two's-complement `int` is
`Int.emod _ 65536` (always non-negative).  The external symbol table
(`stab_get`) is a parameter `stab : List Char → Option Nat` returning
the 16-bit value of a resolved name.
-/

namespace Parse

/-- C `isdigit` in the C locale. -/
def isdigitC (c : Char) : Bool := '0' ≤ c && c ≤ '9'

/-- C `isupper` in the C locale. -/
def isupperC (c : Char) : Bool := 'A' ≤ c && c ≤ 'Z'

/-- C `islower` in the C locale. -/
def islowerC (c : Char) : Bool := 'a' ≤ c && c ≤ 'z'

/-- C `isalnum` in the C locale. -/
def isalnumC (c : Char) : Bool := isdigitC c || isupperC c || islowerC c

/-- C `isspace` in the C locale: space, \t, \n, \v, \f, \r. -/
def isspaceC (c : Char) : Bool :=
  c = ' ' || c = '\t' || c = '\n' || c = '\x0b' || c = '\x0c' || c = '\r'

/-- C `isxdigit` in the C locale. -/
def isxdigitC (c : Char) : Bool :=
  isdigitC c || ('a' ≤ c && c ≤ 'f') || ('A' ≤ c && c ≤ 'F')

/-- C `tolower` in the C locale: shift A-Z down by 32, leave the rest. -/
def toLowerC (c : Char) : Char :=
  if isupperC c then Char.ofNat (c.toNat + 32) else c

/-- `strcasecmp(a, b) == 0`: equal length and equal characters after
`tolower` on each. -/
def strcaseEq : List Char → List Char → Bool
  | [], [] => true
  | a :: as, b :: bs => toLowerC a = toLowerC b && strcaseEq as bs
  | _, _ => false

theorem strcaseEq_iff_map (a b : List Char) :
    strcaseEq a b = true ↔ a.map toLowerC = b.map toLowerC := by
  induction a generalizing b with
  | nil => cases b <;> simp [strcaseEq]
  | cons x xs ih =>
    cases b with
    | nil => simp [strcaseEq]
    | cons y ys => simp [strcaseEq, ih]

/-- `get_arg` from parse.c: skip leading whitespace; if the cursor is
exhausted return `none`; otherwise the token is the maximal run of
non-whitespace characters, and the cursor is advanced past the
whitespace that follows it (which the C code overwrites with NULs).
Returns the token and the new cursor position. -/
def get_arg (text : List Char) : Option (List Char × List Char) :=
  let start := text.dropWhile isspaceC
  if start = [] then none
  else
    let tok := start.takeWhile (fun c => !isspaceC c)
    let rest := (start.dropWhile (fun c => !isspaceC c)).dropWhile isspaceC
    some (tok, rest)

/-- A command-table entry (`struct command` from parse.h, as used by
parse.c).  The handler receives the remaining argument cursor and the
current value of the global `interactive_call` flag; it returns its
status, the value it leaves in `interactive_call` (a handler may run a
nested dispatch), and the diagnostic lines it wrote to stderr. -/
structure Command where
  name : List Char
  func : List Char → Int → Int × Int × List (List Char)

/-- `find_command` from parse.c: linear scan of the externally supplied
table, `strcasecmp` exact match, first match wins. -/
def find_command (tbl : List Command) (name : List Char) : Option Command :=
  match tbl with
  | [] => none
  | c :: rest => if strcaseEq name c.name then some c else find_command rest name

/-- Trailing-whitespace strip at the top of `process_command`
(`while (len && isspace(arg[len-1])) len--; arg[len] = 0;`). -/
def rstrip (l : List Char) : List Char :=
  (l.reverse.dropWhile isspaceC).reverse

/-- The diagnostic line `"unknown command: %s (try \"help\")"`. -/
def unknownCommandMsg (cmd_text : List Char) : List Char :=
  ("unknown command: ".toList) ++ cmd_text ++ (" (try \"help\")".toList)

/-- `process_command` from parse.c.  Inputs: the command table, the raw
line, the `interactive` argument, and the current global
`interactive_call` flag.  Output: the return status, the value of
`interactive_call` after the call, and the diagnostic lines written to
stderr during the call. -/
def process_command (tbl : List Command) (arg : List Char)
    (interactive : Int) (flag : Int) : Int × Int × List (List Char) :=
  match get_arg (rstrip arg) with
  | none => (0, flag, [])
  | some (cmd_text, rest) =>
    match find_command tbl cmd_text with
    | some cmd =>
      let old := flag
      let r := cmd.func rest interactive
      (0, old, r.2.2)
    | none => (-1, flag, [unknownCommandMsg cmd_text])

/-- `option_type_t` from parse.h. -/
inductive option_type where
  | OPTION_BOOLEAN
  | OPTION_NUMERIC
  | OPTION_TEXT
deriving DecidableEq

/-- The value stored in an option's `data` union. -/
inductive option_data where
  | numeric (n : Int)
  | text (s : List Char)
deriving DecidableEq

/-- A registered option (`struct option`): name, kind and stored value. -/
structure OptionRec where
  name : List Char
  type : option_type
  data : option_data

/-- `register_option` from parse.c: push onto the head of the list
(`register_option` is a reserved Lean command, hence the primed name). -/
def register_option' (o : OptionRec) (l : List OptionRec) : List OptionRec :=
  o :: l

/-- `find_option` from parse.c: linear scan, `strcasecmp` exact match,
first match wins. -/
def find_option (l : List OptionRec) (name : List Char) : Option OptionRec :=
  match l with
  | [] => none
  | o :: rest => if strcaseEq o.name name then some o else find_option rest name

/-- The boolean condition of `parse_option`'s `OPTION_BOOLEAN` case:
`(isdigit(word[0]) && word[0] > '0') || word[0] == 't' ||
 word[0] == 'y' || (word[0] == 'o' && word[1] == 'n')`.
`word[i]` past the end of the list is the NUL terminator. -/
def bool_cond (word : List Char) : Bool :=
  let c0 := word.headD '\x00'
  let c1 := (word.drop 1).headD '\x00'
  (isdigitC c0 && '0' < c0) || c0 = 't' || c0 = 'y' || (c0 = 'o' && c1 = 'n')

/-- Decimal digit value. -/
def digitVal (c : Char) : Nat := c.toNat - '0'.toNat

/-- `atoi` on a string of decimal digits. -/
def decVal (l : List Char) : Nat :=
  l.foldl (fun a c => 10 * a + digitVal c) 0

/-- Hexadecimal digit value (valid for `isxdigitC` characters). -/
def hexDigitVal (c : Char) : Nat :=
  if isdigitC c then c.toNat - '0'.toNat
  else if 'a' ≤ c && c ≤ 'f' then c.toNat - 'a'.toNat + 10
  else c.toNat - 'A'.toNat + 10

/-- Value of the maximal leading run of hex digits (0 if there is none). -/
def hexRunVal (l : List Char) : Nat :=
  (l.takeWhile isxdigitC).foldl (fun a c => 16 * a + hexDigitVal c) 0

/-- `strtol(l, NULL, 16)` on the remainder of a `0x` term.  The
remainder consists of term characters only (no whitespace or sign, so
those strtol features cannot trigger), but strtol itself accepts one
more optional `0x`/`0X` prefix when a hex digit follows it. -/
def strtol16 (l : List Char) : Nat :=
  match l with
  | '0' :: c :: rest =>
    if (c = 'x' || c = 'X') && (match rest with
        | r :: _ => isxdigitC r
        | [] => false) then
      hexRunVal rest
    else hexRunVal l
  | _ => hexRunVal l

/-- The term-character class of `addr_exp`:
`isalnum(c) || c == '_' || c == '$' || c == '.' || c == ':'`. -/
def isTermChar (c : Char) : Bool :=
  isalnumC c || c = '_' || c = '$' || c = '.' || c = ':'

/-- The hex test of `token_add`:
`token_buf[0] == '0' && tolower(token_buf[1]) == 'x'` (a one-character
buffer has the NUL terminator as `token_buf[1]`, which fails the test). -/
def hexPrefixed (t : List Char) : Bool :=
  match t with
  | '0' :: c :: _ => toLowerC c = 'x'
  | ['0'] => toLowerC '\x00' = 'x'
  | _ => false

/-- Resolution of one buffered term, in `token_add`'s order: all decimal
digits → `atoi`; leading `0` then `x`/`X` → `strtol` base 16 on the
remainder; otherwise the external symbol table, whose failure is the
evaluation error. -/
def resolveTerm (stab : List Char → Option Nat) (t : List Char) : Option Int :=
  if t.all isdigitC then some (decVal t)
  else if hexPrefixed t then some (strtol16 (t.drop 2))
  else match stab t with
    | some v => some (Int.ofNat v)
    | none => none

/-- The evaluator's transient state: `token_buf`/`token_len`,
`token_mult`, `token_sum`. -/
structure EvalState where
  buf : List Char
  mult : Int
  sum : Int

/-- `token_add` from parse.c: a no-op on an empty buffer; otherwise
resolve the buffered term, add `token_mult * value` into `token_sum`
and clear the buffer, or fail if the term does not resolve. -/
def token_add (stab : List Char → Option Nat) (s : EvalState) :
    Option EvalState :=
  if s.buf = [] then some s
  else match resolveTerm stab s.buf with
    | some v => some ⟨[], s.mult, s.sum + s.mult * v⟩
    | none => none

/-- The character loop of `addr_exp`: a term character is appended to
the buffer when `token_len + 1 < sizeof(token_buf) = 64` (silently
dropped otherwise); any other character flushes the buffer through
`token_add` and then sets the sign for `+` or `-`. -/
def addrLoop (stab : List Char → Option Nat) (s : EvalState) :
    List Char → Option EvalState
  | [] => some s
  | c :: rest =>
    if isTermChar c then
      addrLoop stab
        ⟨if s.buf.length + 1 < 64 then s.buf ++ [c] else s.buf, s.mult, s.sum⟩
        rest
    else
      match token_add stab s with
      | none => none
      | some s' =>
        addrLoop stab
          ⟨s'.buf, if c = '+' then 1 else if c = '-' then -1 else s'.mult,
            s'.sum⟩ rest

/-- `addr_exp` from parse.c: run the loop from `token_len = 0`,
`token_mult = 1`, `token_sum = 0`, flush the final term, and produce
`token_sum & 0xffff` (on a two's-complement `int` this is the
non-negative residue mod 65536). -/
def addr_exp (stab : List Char → Option Nat) (text : List Char) :
    Option Int :=
  match addrLoop stab ⟨[], 1, 0⟩ text with
  | none => none
  | some s =>
    match token_add stab s with
    | none => none
    | some s' => some (s'.sum % 65536)

/-- The caller-facing shape of `int addr_exp(const char *text, int *addr)`:
given the initial contents of the output cell, return the status and the
cell's contents after the call (`*addr` is written only on success). -/
def addr_exp_call (stab : List Char → Option Nat) (text : List Char)
    (addr0 : Int) : Int × Int :=
  match addr_exp stab text with
  | some v => (0, v)
  | none => (-1, addr0)

/-- `parse_option` from parse.c, returning the stored value (`none` on
failure).  `cap` is the compile-time capacity of the text union member
`o->data.text` (its declaration lives in parse.h, outside this file's
sources); `strncpy` plus the forced final NUL store the first
`cap - 1` characters of the word. -/
def parse_option (cap : Nat) (stab : List Char → Option Nat)
    (type : option_type) (word : List Char) : Option option_data :=
  match type with
  | .OPTION_BOOLEAN => some (.numeric (if bool_cond word then 1 else 0))
  | .OPTION_NUMERIC =>
    match addr_exp stab word with
    | some v => some (.numeric v)
    | none => none
  | .OPTION_TEXT => some (.text (word.take (cap - 1)))

/-! Spec-level view of the evaluator (for the refinement claim): first
split the input into terms and separator characters, then make a single
left-to-right pass over that item list accumulating `sign * value`. -/

/-- An item of the spec-level pass: a (buffered, hence at most
63-character) term, or a single separator character. -/
inductive LexItem where
  | term (t : List Char)
  | sep (c : Char)
deriving DecidableEq

/-- Split the input into terms and separators, with the same bounded
buffering as the evaluator's loop: only nonempty terms are emitted, and
characters beyond the 63rd of a term are dropped. -/
def lexAux (buf : List Char) : List Char → List LexItem
  | [] => if buf = [] then [] else [.term buf]
  | c :: rest =>
    if isTermChar c then
      lexAux (if buf.length + 1 < 64 then buf ++ [c] else buf) rest
    else
      (if buf = [] then [LexItem.sep c] else [LexItem.term buf, LexItem.sep c])
        ++ lexAux [] rest

/-- The terms and separators of an address expression. -/
def lex (text : List Char) : List LexItem := lexAux [] text

/-- Spec-level accumulation over the item list: `sum` starts at 0 and
`sign` at +1; each term contributes `sign * value`; a `+` separator sets
`sign` to +1, a `-` separator sets it to -1, and any other separator
leaves it unchanged. -/
def specEval (stab : List Char → Option Nat) :
    List LexItem → Int → Int → Option Int
  | [], _, sum => some sum
  | .term t :: rest, sign, sum =>
    match resolveTerm stab t with
    | some v => specEval stab rest sign (sum + sign * v)
    | none => none
  | .sep c :: rest, sign, sum =>
    specEval stab rest (if c = '+' then 1 else if c = '-' then -1 else sign) sum

/-- Spec-level address-expression evaluation: lex, accumulate from
`sum = 0`, `sign = +1`, and truncate the final sum to 16 bits. -/
def addr_exp_spec (stab : List Char → Option Nat) (text : List Char) :
    Option Int :=
  (specEval stab (lex text) 1 0).map (fun s => s % 65536)

/-- A fixed symbol table for concrete examples:
`a ↦ 5`, `b ↦ 3`, `c ↦ 2`. -/
def stabABC : List Char → Option Nat := fun s =>
  if s = ['a'] then some 5
  else if s = ['b'] then some 3
  else if s = ['c'] then some 2
  else none

/-! Helper lemmas. -/

theorem dropWhile_take_one {α : Type} (p : α → Bool) (l : List α) :
    ∀ c ∈ (l.dropWhile p).take 1, p c = false := by
  induction l with
  | nil => simp
  | cons a l ih =>
    by_cases h : p a
    · simpa [List.dropWhile_cons, h] using ih
    · simp [List.dropWhile_cons, h]

theorem get_arg_none_iff (l : List Char) :
    get_arg l = none ↔ ∀ c ∈ l, isspaceC c = true := by
  unfold get_arg
  by_cases h : l.dropWhile isspaceC = []
  · simp only [h, if_pos]
    simp only [true_iff]
    exact List.dropWhile_eq_nil_iff.mp h
  · simp only [h, if_neg, if_false]
    constructor
    · intro hc
      exact absurd hc (by simp)
    · intro hall
      exact absurd (List.dropWhile_eq_nil_iff.mpr hall) h

theorem mem_rstrip_all (l : List Char) :
    (∀ c ∈ rstrip l, isspaceC c = true) ↔ ∀ c ∈ l, isspaceC c = true := by
  unfold rstrip
  constructor
  · intro h c hc
    have : c ∈ l.reverse := by simpa using hc
    rw [← List.takeWhile_append_dropWhile (p := isspaceC) (l := l.reverse)]
      at this
    rcases List.mem_append.mp this with h1 | h2
    · exact List.mem_takeWhile_imp h1
    · exact h c (by simpa using h2)
  · intro h c hc
    have hd : c ∈ l.reverse.dropWhile isspaceC := by simpa using hc
    have : c ∈ l.reverse := by
      rw [← List.takeWhile_append_dropWhile (p := isspaceC) (l := l.reverse)]
      exact List.mem_append.mpr (Or.inr hd)
    exact h c (by simpa using this)

/-- Claim C6: `get_arg` skips leading whitespace, returns the following
maximal run of non-whitespace characters as the token, and advances the
cursor past the whitespace that follows the token; it returns `none`
exactly when the input is empty or all whitespace.  On `"   foo   bar"`
it yields `"foo"` with the cursor left at `"bar"`. -/
theorem get_arg_tokenizer :
    (∀ text, get_arg text = none ↔ ∀ c ∈ text, isspaceC c = true) ∧
    (∀ text tok rest, get_arg text = some (tok, rest) →
      tok ≠ [] ∧ (∀ c ∈ tok, isspaceC c = false) ∧
      ∃ ws1 ws2, (∀ c ∈ ws1, isspaceC c = true) ∧
        (∀ c ∈ ws2, isspaceC c = true) ∧
        text = ws1 ++ tok ++ ws2 ++ rest ∧
        (∀ c ∈ rest.take 1, isspaceC c = false) ∧
        (ws2 = [] → rest = [])) ∧
    get_arg "   foo   bar".toList = some ("foo".toList, "bar".toList) := by
  refine ⟨get_arg_none_iff, ?_, by decide⟩
  intro text tok rest h
  simp only [get_arg] at h
  by_cases hs : text.dropWhile isspaceC = []
  · rw [if_pos hs] at h
    exact absurd h (by simp)
  · rw [if_neg hs] at h
    simp only [Option.some.injEq, Prod.mk.injEq] at h
    obtain ⟨h1, h2⟩ := h
    subst h1
    subst h2
    obtain ⟨c, s', hcs⟩ := List.exists_cons_of_ne_nil hs
    have hc : isspaceC c = false := by
      have hh := dropWhile_take_one isspaceC text
      rw [hcs] at hh
      exact hh c (by simp)
    refine ⟨?_, ?_, ?_⟩
    · rw [hcs]
      simp [List.takeWhile_cons, hc]
    · intro x hx
      simpa using List.mem_takeWhile_imp hx
    refine ⟨text.takeWhile isspaceC,
      ((text.dropWhile isspaceC).dropWhile fun c => !isspaceC c).takeWhile
        isspaceC, ?_, ?_, ?_, ?_, ?_⟩
    · intro x hx
      exact List.mem_takeWhile_imp hx
    · intro x hx
      exact List.mem_takeWhile_imp hx
    · conv_lhs => rw [← List.takeWhile_append_dropWhile (p := isspaceC)
        (l := text)]
      rw [List.append_assoc, List.append_assoc]
      congr 1
      conv_lhs => rw [← List.takeWhile_append_dropWhile
        (p := fun c => !isspaceC c) (l := text.dropWhile isspaceC)]
      congr 1
      conv_lhs => rw [← List.takeWhile_append_dropWhile (p := isspaceC)
        (l := (text.dropWhile isspaceC).dropWhile fun c => !isspaceC c)]
    · exact dropWhile_take_one isspaceC _
    · intro hw2
      rcases hr : (text.dropWhile isspaceC).dropWhile (fun c => !isspaceC c)
        with _ | ⟨d, r0⟩
      · simp [hr]
      · exfalso
        have hd : isspaceC d = true := by
          have hh := dropWhile_take_one (fun c => !isspaceC c)
            (text.dropWhile isspaceC)
          rw [hr] at hh
          simpa using hh d (by simp)
        rw [hr] at hw2
        simp [List.takeWhile_cons, hd] at hw2

/-- Claim C7: `process_command` restores the global `interactive_call`
flag: the value observed after the call equals the value before it,
whatever the command table, the line and the handler do. -/
theorem process_command_preserves_interactive :
    ∀ tbl arg interactive flag,
      (process_command tbl arg interactive flag).2.1 = flag := by
  intro tbl arg i flag
  unfold process_command
  rcases hg : get_arg (rstrip arg) with _ | ⟨tok, rest⟩
  · rfl
  · rcases hf : find_command tbl tok with _ | cmd <;> simp [hf]

/-- Claim C8: parsing a word into a Text option always succeeds; the
stored value is the prefix of the word that fits the capacity-`cap`
buffer (`strncpy` then a forced final NUL keeps `cap - 1` characters),
so it is always terminated inside the buffer, and an over-long word is
silently truncated with no error reported. -/
theorem parse_option_text :
    ∀ cap stab word, 1 ≤ cap →
      parse_option cap stab option_type.OPTION_TEXT word =
        some (option_data.text (word.take (cap - 1))) ∧
      word.take (cap - 1) <+: word ∧
      (word.take (cap - 1)).length ≤ cap - 1 ∧
      (cap ≤ word.length → (word.take (cap - 1)).length = cap - 1) := by
  intro cap stab word hcap
  refine ⟨rfl, List.take_prefix _ _, ?_, ?_⟩
  · rw [List.length_take]
    omega
  · intro hlen
    rw [List.length_take]
    omega

/-- Witness for C8 at capacity 4 and the 8-character word `"abcdefgh"`. -/
theorem parse_option_text_w :
    parse_option 4 (fun _ => none) option_type.OPTION_TEXT
        "abcdefgh".toList =
      some (option_data.text ("abcdefgh".toList.take (4 - 1))) ∧
    "abcdefgh".toList.take (4 - 1) <+: "abcdefgh".toList ∧
    ("abcdefgh".toList.take (4 - 1)).length ≤ 4 - 1 ∧
    (4 ≤ "abcdefgh".toList.length →
      ("abcdefgh".toList.take (4 - 1)).length = 4 - 1) :=
  parse_option_text 4 (fun _ => none) "abcdefgh".toList (by decide)

/-- Witness for C6 on the cursor `"   foo   bar"`. -/
theorem get_arg_tokenizer_w :
    "foo".toList ≠ [] ∧ (∀ c ∈ "foo".toList, isspaceC c = false) ∧
    ∃ ws1 ws2, (∀ c ∈ ws1, isspaceC c = true) ∧
      (∀ c ∈ ws2, isspaceC c = true) ∧
      "   foo   bar".toList = ws1 ++ "foo".toList ++ ws2 ++ "bar".toList ∧
      (∀ c ∈ "bar".toList.take 1, isspaceC c = false) ∧
      (ws2 = [] → "bar".toList = []) :=
  get_arg_tokenizer.2.1 "   foo   bar".toList "foo".toList "bar".toList
    (by decide)

/-- Claim C2: the dispatcher returns success on a line with no token
after whitespace stripping (writing nothing), returns success whenever
the extracted name is found in the table regardless of the handler's
return value, and returns failure with exactly one diagnostic line
exactly when a name is extracted but no command matches. -/
theorem process_command_dispatch :
    (∀ tbl arg interactive flag, (∀ c ∈ arg, isspaceC c = true) →
      process_command tbl arg interactive flag = (0, flag, [])) ∧
    (∀ tbl arg interactive flag tok rest cmd,
      get_arg (rstrip arg) = some (tok, rest) →
      find_command tbl tok = some cmd →
      process_command tbl arg interactive flag =
        (0, flag, (cmd.func rest interactive).2.2)) ∧
    (∀ tbl arg interactive flag tok rest,
      get_arg (rstrip arg) = some (tok, rest) →
      find_command tbl tok = none →
      process_command tbl arg interactive flag =
        (-1, flag, [unknownCommandMsg tok])) := by
  refine ⟨?_, ?_, ?_⟩
  · intro tbl arg i flag hall
    have hg : get_arg (rstrip arg) = none :=
      (get_arg_none_iff _).mpr ((mem_rstrip_all arg).mpr hall)
    simp [process_command, hg]
  · intro tbl arg i flag tok rest cmd hg hf
    simp [process_command, hg, hf]
  · intro tbl arg i flag tok rest hg hf
    simp [process_command, hg, hf]

/-- Witness for C2: a one-command table whose handler fails (returns -1)
still yields dispatcher success; an all-whitespace line is a no-op; an
unknown name fails with one diagnostic line. -/
theorem process_command_dispatch_w :
    process_command [⟨"help".toList, fun _ _ => (-1, 9, [])⟩] " ".toList
        1 0 = (0, 0, []) ∧
    process_command [⟨"help".toList, fun _ _ => (-1, 9, [])⟩]
        " help x ".toList 1 0 =
      (0, 0, ((⟨"help".toList, fun _ _ => (-1, 9, [])⟩ : Command).func
        "x".toList 1).2.2) ∧
    process_command [⟨"help".toList, fun _ _ => (-1, 9, [])⟩]
        "frob".toList 1 0 =
      (-1, 0, [unknownCommandMsg "frob".toList]) :=
  ⟨process_command_dispatch.1 _ _ 1 0 (by decide),
   process_command_dispatch.2.1 [⟨"help".toList, fun _ _ => (-1, 9, [])⟩]
     " help x ".toList 1 0 "help".toList "x".toList _ (by rfl) (by rfl),
   process_command_dispatch.2.2 [⟨"help".toList, fun _ _ => (-1, 9, [])⟩]
     "frob".toList 1 0 "frob".toList [] (by rfl) (by rfl)⟩

/-- Claim C5: parsing a word into a Boolean option always succeeds, and
the stored value is true iff the word's first character is a decimal
digit strictly greater than `'0'`, or is `'t'`, or is `'y'`, or the
first two characters are `"on"`.  `"1"`, `"true"`, `"yes"`, `"on"` and
`"truish"` parse true; `"0"`, `"false"`, `"no"`, `"off"`, `""` and
`"0foo"` parse false. -/
theorem parse_option_boolean :
    (∀ cap stab word, parse_option cap stab option_type.OPTION_BOOLEAN word =
      some (option_data.numeric (if bool_cond word then 1 else 0))) ∧
    (∀ word, bool_cond word = true ↔
      ((∃ c cs, word = c :: cs ∧
        ((isdigitC c = true ∧ '0' < c) ∨ c = 't' ∨ c = 'y')) ∨
        word.take 2 = ['o', 'n'])) ∧
    (bool_cond "1".toList = true ∧ bool_cond "true".toList = true ∧
     bool_cond "yes".toList = true ∧ bool_cond "on".toList = true) ∧
    (bool_cond "0".toList = false ∧ bool_cond "false".toList = false ∧
     bool_cond "no".toList = false ∧ bool_cond "off".toList = false ∧
     bool_cond "".toList = false) ∧
    (bool_cond "truish".toList = true ∧ bool_cond "0foo".toList = false) := by
  refine ⟨fun cap stab word => rfl, ?_, by decide, by decide, by decide⟩
  intro word
  have h0n : ('\x00' : Char) ≠ 'n' := by decide
  match word with
  | [] => simp [bool_cond]
  | [c] =>
    simp only [bool_cond, List.headD_cons, List.drop_succ_cons,
      List.drop_nil, List.headD_nil, List.take_cons, List.take_nil,
      Bool.or_eq_true, Bool.and_eq_true, decide_eq_true_eq]
    constructor
    · rintro (((⟨hd, hlt⟩ | ht) | hy) | ⟨ho, hn⟩)
      · exact Or.inl ⟨c, [], rfl, Or.inl ⟨hd, hlt⟩⟩
      · exact Or.inl ⟨c, [], rfl, Or.inr (Or.inl ht)⟩
      · exact Or.inl ⟨c, [], rfl, Or.inr (Or.inr hy)⟩
      · exact absurd hn h0n
    · rintro (⟨c', cs', hcc, hp⟩ | htake)
      · obtain ⟨rfl, rfl⟩ := List.cons.injEq .. ▸ hcc
        rcases hp with ⟨hd, hlt⟩ | ht | hy
        · exact Or.inl (Or.inl (Or.inl ⟨hd, hlt⟩))
        · exact Or.inl (Or.inl (Or.inr ht))
        · exact Or.inl (Or.inr hy)
      · exact absurd htake (by simp)
  | c :: d :: cs =>
    simp only [bool_cond, List.headD_cons, List.drop_succ_cons,
      List.drop_nil, List.take_cons, List.take_nil, List.take_zero,
      Bool.or_eq_true, Bool.and_eq_true, decide_eq_true_eq]
    constructor
    · rintro (((⟨hd, hlt⟩ | ht) | hy) | ⟨ho, hn⟩)
      · exact Or.inl ⟨c, d :: cs, rfl, Or.inl ⟨hd, hlt⟩⟩
      · exact Or.inl ⟨c, d :: cs, rfl, Or.inr (Or.inl ht)⟩
      · exact Or.inl ⟨c, d :: cs, rfl, Or.inr (Or.inr hy)⟩
      · subst ho; subst hn; exact Or.inr rfl
    · rintro (⟨c', cs', hcc, hp⟩ | htake)
      · obtain ⟨rfl, rfl⟩ := List.cons.injEq .. ▸ hcc
        rcases hp with ⟨hd, hlt⟩ | ht | hy
        · exact Or.inl (Or.inl (Or.inl ⟨hd, hlt⟩))
        · exact Or.inl (Or.inl (Or.inr ht))
        · exact Or.inl (Or.inr hy)
      · have : c = 'o' ∧ d = 'n' := by
          simpa using htake
        exact Or.inr ⟨this.1, this.2⟩

/-- Two names are case-variants: equal after `tolower` on each char. -/
theorem strcaseEq_congr {n n' m : List Char}
    (h : n.map toLowerC = n'.map toLowerC) :
    strcaseEq n m = strcaseEq n' m := by
  cases hb : strcaseEq n' m
  · cases hb' : strcaseEq n m
    · rfl
    · exact absurd ((strcaseEq_iff_map n' m).mpr
        (h ▸ (strcaseEq_iff_map n m).mp hb')) (by simp [hb])
  · exact (strcaseEq_iff_map n m).mpr (h.trans ((strcaseEq_iff_map n' m).mp hb))

/-- Claim C9: command and option lookup are invariant under letter case
of the queried name; both are exact (not prefix) matches — a hit's
stored name equals the query up to case, hence also in length — and the
first matching entry in scan order wins. -/
theorem find_case_insensitive :
    (∀ tbl n n', n.map toLowerC = n'.map toLowerC →
      find_command tbl n = find_command tbl n') ∧
    (∀ l n n', n.map toLowerC = n'.map toLowerC →
      find_option l n = find_option l n') ∧
    (∀ tbl n c, find_command tbl n = some c →
      c.name.map toLowerC = n.map toLowerC) ∧
    (∀ l n o, find_option l n = some o →
      o.name.map toLowerC = n.map toLowerC) ∧
    (∀ c tbl n, find_command (c :: tbl) n =
      if strcaseEq n c.name then some c else find_command tbl n) ∧
    (∀ o l n, find_option (o :: l) n =
      if strcaseEq o.name n then some o else find_option l n) := by
  refine ⟨?_, ?_, ?_, ?_, fun c tbl n => rfl, fun o l n => rfl⟩
  · intro tbl n n' h
    induction tbl with
    | nil => rfl
    | cons c rest ih => simp only [find_command, strcaseEq_congr h, ih]
  · intro l n n' h
    induction l with
    | nil => rfl
    | cons o rest ih =>
      have : strcaseEq o.name n = strcaseEq o.name n' := by
        cases hb : strcaseEq o.name n'
        · cases hb' : strcaseEq o.name n
          · rfl
          · exact absurd ((strcaseEq_iff_map o.name n').mpr
              (((strcaseEq_iff_map o.name n).mp hb').trans h)) (by simp [hb])
        · exact (strcaseEq_iff_map o.name n).mpr
            (((strcaseEq_iff_map o.name n').mp hb).trans h.symm)
      simp only [find_option, this, ih]
  · intro tbl n c h
    induction tbl with
    | nil => exact absurd h (by simp [find_command])
    | cons c0 rest ih =>
      by_cases hm : strcaseEq n c0.name
      · simp only [find_command, if_pos hm, Option.some.injEq] at h
        subst h
        exact ((strcaseEq_iff_map n c0.name).mp hm).symm
      · simp only [find_command, if_neg hm] at h
        exact ih h
  · intro l n o h
    induction l with
    | nil => exact absurd h (by simp [find_option])
    | cons o0 rest ih =>
      by_cases hm : strcaseEq o0.name n
      · simp only [find_option, if_pos hm, Option.some.injEq] at h
        subst h
        exact (strcaseEq_iff_map o0.name n).mp hm
      · simp only [find_option, if_neg hm] at h
        exact ih h

/-- Witness for C9: in a one-entry table, `"HELP"` and `"help"` resolve
to the same entry, for commands and options alike. -/
theorem find_case_insensitive_w :
    find_command [⟨"help".toList, fun _ _ => (0, 0, [])⟩] "HELP".toList =
      find_command [⟨"help".toList, fun _ _ => (0, 0, [])⟩] "help".toList ∧
    find_option [⟨"color".toList, option_type.OPTION_BOOLEAN,
        option_data.numeric 0⟩] "COLOR".toList =
      find_option [⟨"color".toList, option_type.OPTION_BOOLEAN,
        option_data.numeric 0⟩] "color".toList :=
  ⟨find_case_insensitive.1 _ "HELP".toList "help".toList (by decide),
   find_case_insensitive.2.1 _ "COLOR".toList "color".toList (by decide)⟩

/-! The loop of `addr_exp` refines the spec-level lex-then-accumulate
pass: one invariant lemma generalised over the mid-loop state. -/

theorem addr_exp_eq_bind (stab : List Char → Option Nat) (text : List Char) :
    addr_exp stab text = (addrLoop stab ⟨[], 1, 0⟩ text).bind
      (fun s => (token_add stab s).map (fun s' => s'.sum % 65536)) := by
  unfold addr_exp
  cases addrLoop stab ⟨[], 1, 0⟩ text with
  | none => rfl
  | some s =>
    cases h : token_add stab s with
    | none => simp [h]
    | some s' => simp [h]

theorem loop_spec (stab : List Char → Option Nat) :
    ∀ (text buf : List Char) (m sum : Int),
      (addrLoop stab ⟨buf, m, sum⟩ text).bind
        (fun s => (token_add stab s).map (fun s' => s'.sum % 65536)) =
      (specEval stab (lexAux buf text) m sum).map (fun s => s % 65536) := by
  intro text
  induction text with
  | nil =>
    intro buf m sum
    by_cases hb : buf = []
    · subst hb
      simp [addrLoop, lexAux, token_add, specEval]
    · simp only [addrLoop, lexAux, if_neg hb, Option.bind]
      cases hr : resolveTerm stab buf with
      | none => simp [token_add, hb, hr, specEval]
      | some v => simp [token_add, hb, hr, specEval]
  | cons c rest ih =>
    intro buf m sum
    by_cases hc : isTermChar c
    · simp only [addrLoop, lexAux, if_pos hc]
      exact ih _ _ _
    · by_cases hb : buf = []
      · subst hb
        simp only [addrLoop, lexAux, if_neg hc, token_add, if_pos rfl,
          List.nil_append, specEval]
        exact ih _ _ _
      · cases hr : resolveTerm stab buf with
        | none =>
          simp [addrLoop, lexAux, hc, hb, token_add, hr, specEval]
        | some v =>
          simp only [addrLoop, lexAux, if_neg hc, if_neg hb, token_add,
            hr, List.cons_append, List.nil_append, specEval]
          exact ih _ _ _

theorem addr_exp_eq_spec (stab : List Char → Option Nat) (text : List Char) :
    addr_exp stab text = addr_exp_spec stab text := by
  rw [addr_exp_eq_bind, addr_exp_spec, lex]
  exact loop_spec stab text [] 1 0

/-- Claim C1: evaluating an address expression equals the single
left-to-right spec pass over its terms (sum from 0, sign from +1, each
term contributing `sign * value`, `+`/`-` setting the sign, other
separators leaving it), with decimal, `0x`-hex and symbol terms; and
the five concrete spec examples hold. -/
theorem addr_exp_left_to_right :
    (∀ stab text, addr_exp stab text = addr_exp_spec stab text) ∧
    addr_exp (fun _ => none) "10".toList = some 10 ∧
    addr_exp (fun _ => none) "0x10".toList = some 16 ∧
    addr_exp (fun _ => none) "2+3".toList = some 5 ∧
    addr_exp (fun _ => none) "0x10-1".toList = some 15 ∧
    addr_exp stabABC "a+b-c".toList = some 6 :=
  ⟨addr_exp_eq_spec, by decide, by decide, by decide, by decide, by decide⟩

theorem specEval_none_of_fail (stab : List Char → Option Nat) :
    ∀ (items : List LexItem) (sign sum : Int) (t : List Char),
      LexItem.term t ∈ items → resolveTerm stab t = none →
      specEval stab items sign sum = none := by
  intro items
  induction items with
  | nil =>
    intro _ _ _ h
    simp at h
  | cons it rest ih =>
    intro sign sum t hmem hfail
    cases it with
    | term u =>
      rcases List.mem_cons.mp hmem with heq | hmem'
      · have hu : u = t := by
          injection heq.symm
        subst hu
        simp [specEval, hfail]
      · cases hr : resolveTerm stab u with
        | none => simp [specEval, hr]
        | some v =>
          simp only [specEval, hr]
          exact ih _ _ _ hmem' hfail
    | sep d =>
      have hmem' : LexItem.term t ∈ rest := by
        rcases List.mem_cons.mp hmem with heq | h'
        · exact absurd heq (by simp)
        · exact h'
      simp only [specEval]
      exact ih _ _ _ hmem' hfail

/-- Claim C3: a term that is neither all-decimal nor `0x`-prefixed and
that the symbol table fails to resolve aborts the whole evaluation with
an error status and no partial result: the output cell keeps its prior
value, whatever the other terms are; in particular
`"unknown_sym+1"` fails despite its `+1` term. -/
theorem addr_exp_unknown_token_aborts :
    (∀ stab text t addr0, LexItem.term t ∈ lex text →
      t.all isdigitC = false → hexPrefixed t = false → stab t = none →
      addr_exp_call stab text addr0 = (-1, addr0)) ∧
    addr_exp_call (fun _ => none) "unknown_sym+1".toList 1234 =
      (-1, 1234) := by
  constructor
  · intro stab text t a0 hmem hdec hhex hstab
    have hfail : resolveTerm stab t = none := by
      simp [resolveTerm, hdec, hhex, hstab]
    have hnone : addr_exp stab text = none := by
      rw [addr_exp_eq_spec, addr_exp_spec,
        specEval_none_of_fail stab (lex text) 1 0 t hmem hfail]
      rfl
    simp [addr_exp_call, hnone]
  · decide

/-- Witness for C3 at the expression `"99+unknown_sym"` (a failing
symbolic term aborts even after a successful decimal term). -/
theorem addr_exp_unknown_token_aborts_w :
    addr_exp_call (fun _ => none) "99+unknown_sym".toList 77 = (-1, 77) :=
  addr_exp_unknown_token_aborts.1 (fun _ => none) "99+unknown_sym".toList
    "unknown_sym".toList 77 (by decide) (by decide) (by decide) rfl

theorem specEval_total (stab : List Char → Option Nat)
    (htot : ∀ t, (stab t).isSome) :
    ∀ (items : List LexItem) (sign sum : Int),
      (specEval stab items sign sum).isSome := by
  intro items
  induction items with
  | nil =>
    intro sign sum
    simp [specEval]
  | cons it rest ih =>
    intro sign sum
    cases it with
    | term u =>
      have hres : (resolveTerm stab u).isSome := by
        unfold resolveTerm
        by_cases h1 : u.all isdigitC
        · simp [h1]
        · by_cases h2 : hexPrefixed u
          · simp [h1, h2]
          · cases hs : stab u with
            | none => exact absurd (htot u) (by simp [hs])
            | some v => simp [h1, h2, hs]
      cases hr : resolveTerm stab u with
      | none => exact absurd hres (by simp [hr])
      | some v =>
        simp only [specEval, hr]
        exact ih _ _
    | sep d =>
      simp only [specEval]
      exact ih _ _

/-- Claim C4: every successful evaluation stores the accumulated signed
sum masked to 16 bits; resolution failure is the only failure, so no
overflow error exists and a sum of 70000 yields 4464. -/
theorem addr_exp_mask16 :
    (∀ stab text s, specEval stab (lex text) 1 0 = some s →
      addr_exp stab text = some (s % 65536)) ∧
    (∀ stab text, (∀ t, (stab t).isSome) → (addr_exp stab text).isSome) ∧
    addr_exp (fun _ => none) "70000".toList = some 4464 ∧
    addr_exp (fun _ => none) "0x10000+4464".toList = some 4464 := by
  refine ⟨?_, ?_, by decide, by decide⟩
  · intro stab text s h
    rw [addr_exp_eq_spec, addr_exp_spec, h]
    rfl
  · intro stab text htot
    rw [addr_exp_eq_spec, addr_exp_spec]
    simpa using specEval_total stab htot (lex text) 1 0

/-- Witness for C4: the sum of `"2+3"` is 5, so the stored result is
`5 % 65536`; and under a total symbol table every evaluation succeeds. -/
theorem addr_exp_mask16_w :
    addr_exp (fun _ => none) "2+3".toList = some ((5 : Int) % 65536) ∧
    (addr_exp (fun _ => some 3) "q".toList).isSome :=
  ⟨addr_exp_mask16.1 (fun _ => none) "2+3".toList 5 (by decide),
   addr_exp_mask16.2.1 (fun _ => some 3) "q".toList (fun _ => rfl)⟩

theorem specEval_no_term (stab : List Char → Option Nat) :
    ∀ (text : List Char), (∀ c ∈ text, isTermChar c = false) →
      ∀ (m sum : Int), specEval stab (lexAux [] text) m sum = some sum := by
  intro text
  induction text with
  | nil =>
    intro _ m sum
    simp [lexAux, specEval]
  | cons c rest ih =>
    intro h m sum
    have hc : isTermChar c = false := h c (by simp)
    simp only [lexAux, hc, Bool.false_eq_true, if_neg, if_pos rfl,
      List.cons_append, List.nil_append, specEval]
    exact ih (fun d hd => h d (by simp [hd])) _ _

/-- Claim C10: an address expression with no term characters at all —
empty, or only separators such as `+`, `-` or whitespace — succeeds and
stores 0 rather than reporting an error. -/
theorem addr_exp_no_terms_zero :
    (∀ stab text, (∀ c ∈ text, isTermChar c = false) →
      addr_exp stab text = some 0) ∧
    (∀ stab, addr_exp stab "".toList = some 0 ∧
      addr_exp stab "+".toList = some 0 ∧
      addr_exp stab "-".toList = some 0 ∧
      addr_exp stab " ".toList = some 0) := by
  have main : ∀ (stab : List Char → Option Nat) (text : List Char),
      (∀ c ∈ text, isTermChar c = false) → addr_exp stab text = some 0 := by
    intro stab text h
    rw [addr_exp_eq_spec, addr_exp_spec, lex, specEval_no_term stab text h]
    rfl
  exact ⟨main, fun stab =>
    ⟨main stab _ (by decide), main stab _ (by decide),
     main stab _ (by decide), main stab _ (by decide)⟩⟩

/-- Witness for C10 on the separator-only expression `"+-  +"`. -/
theorem addr_exp_no_terms_zero_w :
    addr_exp (fun _ => none) "+-  +".toList = some 0 :=
  addr_exp_no_terms_zero.1 (fun _ => none) "+-  +".toList (by decide)

end Parse
